import Mathlib

/-!
Verification of the docset-generator pipeline (`generate-docset.js`).

The definitions below are a shallow embedding of the pure logic of the
script: JS strings become Lean `String`s, DOM snapshots become explicit
structures (lists of anchors / headings in document order), and the
in-browser `evaluate` callbacks become Lean functions over those
structures.  JS `String.prototype.includes` / `startsWith` are embedded
as infix/prefix tests on the character lists.
-/

/-- A contiguous-substring test on character lists. -/
def hasSub (pat : List Char) : List Char → Bool
  | [] => pat.isEmpty
  | c :: rest => List.isPrefixOf pat (c :: rest) || hasSub pat rest

/-- Embedding of JS `s.includes(pat)`: `pat` occurs as a contiguous
substring of `s` (true for the empty pattern, as in JS). -/
def strIncludes (s pat : String) : Bool :=
  hasSub pat.data s.data

/-- Embedding of JS `s.startsWith(p)`. -/
def strStartsWith (s p : String) : Bool :=
  List.isPrefixOf p.data s.data

/-- Embedding of JS `s.trim()`: strip whitespace from both ends. -/
def jsTrim (s : String) : String :=
  String.mk (((s.data.dropWhile Char.isWhitespace).reverse.dropWhile Char.isWhitespace).reverse)

/-- Embedding of JS `s.toLowerCase()` (ASCII case folding). -/
def jsToLower (s : String) : String :=
  String.mk (s.data.map Char.toLower)

/-- Embedding of JS `s.replace(/^\//, "")`: remove a single leading
slash when present (used in `downloadPage` to derive the local path). -/
def stripLeadingSlash (s : String) : String :=
  match s.data with
  | '/' :: rest => String.mk rest
  | _ => s

/-- The `ENTRY_TYPES` constant of the script, as named fields. -/
structure EntryTypes where
  resource : String
  data : String
  guide : String
  function : String
  provider : String

def ENTRY_TYPES : EntryTypes :=
  { resource := "Resource"
  , data := "Source"
  , guide := "Guide"
  , function := "Function"
  , provider := "Provider" }

/-- Embedding of `determineEntryType(name, urlPath)` from the script: ordered
substring tests on the path, then a case-insensitive name test, with a
default. -/
def determineEntryType (name urlPath : String) : String :=
  if strIncludes urlPath "/resources/" then ENTRY_TYPES.resource
  else if strIncludes urlPath "/data-sources/" then ENTRY_TYPES.data
  else if strIncludes urlPath "/guides/" then ENTRY_TYPES.guide
  else if strIncludes urlPath "/functions/" then ENTRY_TYPES.function
  else if strIncludes (jsToLower name) "provider" then ENTRY_TYPES.provider
  else ENTRY_TYPES.guide

/-- An anchor element of the rendered listing page: its `href`
attribute (absent when the attribute is missing), its `textContent`,
and whether it matches the primary menu-item selector
`.menu-list-link a.ember-view` (menu anchors are also plain anchors,
so they appear in the all-anchors scan as well). -/
structure Anchor where
  href : Option String
  text : String
  isMenuItem : Bool
deriving DecidableEq, Repr

/-- A discovered link candidate, as pushed by the `page.evaluate`
callback of `scrapeDocumentation`: trimmed text, raw href, and the
href resolved against the page origin. -/
structure RawLink where
  name : String
  path : String
  fullUrl : String
deriving DecidableEq, Repr

/-- The keep-condition of the extraction loops: the href attribute is
present and truthy, the trimmed text is truthy, and the href contains
`/docs/`. -/
def keepAnchor (a : Anchor) : Bool :=
  match a.href with
  | none => false
  | some h => h != "" && (jsTrim a.text) != "" && strIncludes h "/docs/"

/-- The `fullUrl` computation: `href.startsWith("http") ? href :
window.location.origin + href`. -/
def resolveUrl (origin h : String) : String :=
  if strStartsWith h "http" then h else origin ++ h

/-- One extraction pass (both loops of the `evaluate` callback have
this shape): walk the anchors in document order, keep qualifying ones
whose href was not seen before, threading the `seen` set. -/
def collectPass (origin : String) :
    List Anchor → List RawLink → List String → List RawLink × List String
  | [], acc, seen => (acc, seen)
  | a :: rest, acc, seen =>
    match a.href with
    | none => collectPass origin rest acc seen
    | some h =>
      if h != "" && (jsTrim a.text) != "" && strIncludes h "/docs/" && !(seen.contains h) then
        collectPass origin rest
          (acc ++ [{ name := (jsTrim a.text), path := h, fullUrl := resolveUrl origin h }])
          (h :: seen)
      else
        collectPass origin rest acc seen

/-- The whole `evaluate` callback of `scrapeDocumentation`: first the
menu-item anchors, then all anchors, sharing one `seen` set. -/
def docLinksOf (origin : String) (anchors : List Anchor) : List RawLink :=
  let pass1 := collectPass origin (anchors.filter (fun a => a.isMenuItem)) [] []
  (collectPass origin anchors pass1.1 pass1.2).1

/-- The internal-site test of the post-scrape filter:
`link.path.startsWith('/providers/terraform-routeros/routeros')`. -/
def isInternal (l : RawLink) : Bool :=
  strStartsWith l.path "/providers/terraform-routeros/routeros"

/-- The messages logged by the filter for discarded links. -/
def skipLogs (links : List RawLink) : List String :=
  (links.filter (fun l => !(isInternal l))).map
    (fun l => "Skipping external link: " ++ l.name ++ " (" ++ l.path ++ ")")

/-- Embedding of `scrapeDocumentation`, modelled on a rendered DOM snapshot: the
extraction callback followed by the internal-link filter. -/
def scrapeDocumentation (origin : String) (anchors : List Anchor) : List RawLink :=
  (docLinksOf origin anchors).filter isInternal

/-- A level-2 or level-3 heading inside the content container, in
document order: its `tagName` (uppercase, as the DOM reports it), its
`id` attribute (absent when the attribute is missing), and its
`textContent`. -/
structure Heading where
  tagName : String
  id : Option String
  text : String
deriving DecidableEq, Repr

/-- A content container element (matched by `.markdown, #provider-doc`
or by `article`): its inner markup and its h2/h3 headings in document
order. -/
structure Container where
  innerHTML : String
  headings : List Heading
deriving DecidableEq, Repr

/-- A rendered documentation page, as seen by the `evaluate` callback
of `downloadPage`: the first match of each container selector, the
document title, and the outer markup of the stylesheet links. -/
structure PageDom where
  markdown : Option Container
  article : Option Container
  title : String
  styleLinks : List String
deriving DecidableEq, Repr

/-- An extracted section, pushed when both the id and the cleaned text
are truthy. -/
structure DocSection where
  id : String
  text : String
  level : String
deriving DecidableEq, Repr

/-- Heading-text cleanup: `text.trim()` was already applied; this is
`text.replace(/^#+\s*/, '').trim()` — strip one run of leading `#`
markers and the whitespace after them, then trim. -/
def stripHashMarkers (s : String) : String :=
  match s.data with
  | '#' :: _ =>
    String.mk ((s.data.dropWhile (fun c => c == '#')).dropWhile (fun c => c.isWhitespace))
  | _ => s

/-- The full text pipeline applied to `heading.textContent`. -/
def cleanText (raw : String) : String :=
  jsTrim (stripHashMarkers (jsTrim raw))

/-- The section-extraction loop of the `evaluate` callback:
`querySelectorAll('h2[id], h3[id]')` keeps headings that carry an id
attribute; the loop then keeps those whose id and cleaned text are
truthy. -/
def extractSections (c : Container) : List DocSection :=
  (c.headings.filter (fun h => h.id.isSome)).filterMap (fun h =>
    let id := h.id.getD ""
    let text := cleanText h.text
    let level := jsToLower h.tagName
    if id != "" && text != "" then some { id := id, text := text, level := level }
    else none)

/-- The value returned by the `evaluate` callback of `downloadPage`. -/
structure DocContent where
  content : String
  title : String
  styles : String
  sections : List DocSection
deriving DecidableEq, Repr

/-- Embedding of `document.title.split('|')[0].trim()`: the part of the title
before the first `|` separator, trimmed. -/
def titleOf (t : String) : String :=
  jsTrim (String.mk (t.data.takeWhile (fun c => c != '|')))

/-- The `evaluate` callback of `downloadPage`: prefer the
`.markdown, #provider-doc` container, fall back to `article`, degrade
to the empty string; extract sections from whichever container was
found. -/
def docContentOf (dom : PageDom) : DocContent :=
  let content :=
    match dom.markdown with
    | some m => m.innerHTML
    | none =>
      match dom.article with
      | some a => a.innerHTML
      | none => ""
  let contentContainer :=
    match dom.markdown with
    | some m => some m
    | none => dom.article
  { content := content
  , title := titleOf dom.title
  , styles := String.intercalate "\n" dom.styleLinks
  , sections :=
      match contentContainer with
      | some c => extractSections c
      | none => [] }

/-- The local-path derivation `relativePath + ".html"` where
`relativePath = link.path.replace(/^\//, "")`. -/
def localPathOf (pathKey : String) : String :=
  stripLeadingSlash pathKey ++ ".html"

/-- A link candidate after the download phase: `localPath` and
`sections` are set exactly when the fetch succeeded. -/
structure FetchedLink where
  name : String
  path : String
  fullUrl : String
  localPath : Option String
  sections : List DocSection
deriving DecidableEq, Repr

/-- The effect of one `downloadPage` call on its link: on navigation
success the rendered DOM is extracted and the link is annotated with
`localPath` and `sections`; on navigation failure the error is caught
and the link is left unannotated. -/
def annotate (dom : Option PageDom) (l : RawLink) : FetchedLink :=
  match dom with
  | none =>
    { name := l.name, path := l.path, fullUrl := l.fullUrl
    , localPath := none, sections := [] }
  | some d =>
    { name := l.name, path := l.path, fullUrl := l.fullUrl
    , localPath := some (localPathOf l.path)
    , sections := (docContentOf d).sections }

/-- Embedding of `downloadPages`: every candidate is attempted; `fetch` gives the
rendered DOM of a candidate, or `none` for a navigation failure. -/
def downloadPages (fetch : RawLink → Option PageDom) (links : List RawLink) :
    List FetchedLink :=
  links.map (fun l => annotate (fetch l) l)

/-- A row of the `searchIndex` table. -/
structure IndexRecord where
  name : String
  type : String
  path : String
deriving DecidableEq, Repr

/-- The body of the `buildIndex` loop for one link: skip links without
`localPath`; otherwise one page record followed by one record per
section (`Section` for h2, `Entry` for h3). -/
def pageRecords (link : FetchedLink) : List IndexRecord :=
  match link.localPath with
  | none => []
  | some lp =>
    let entryType := determineEntryType link.name link.path
    { name := link.name, type := entryType, path := lp } ::
      link.sections.map (fun s =>
        { name := s.text
        , type := if s.level == "h2" then "Section" else "Entry"
        , path := lp ++ "#" ++ s.id })

/-- Embedding of `buildIndex`: the rows inserted into the search index, in
insertion order. -/
def buildIndex (links : List FetchedLink) : List IndexRecord :=
  links.foldl (fun acc link => acc ++ pageRecords link) []

/-- The grouping accumulator of `createIndexPage`. -/
structure Grouped where
  resources : List FetchedLink
  dataSources : List FetchedLink
  guides : List FetchedLink
  functions : List FetchedLink
deriving DecidableEq, Repr

/-- The body of the `createIndexPage` grouping loop: links without
`localPath` are skipped; the rest are grouped by path markers, and a
link matching none of the four markers is dropped. -/
def groupStep (g : Grouped) (link : FetchedLink) : Grouped :=
  if link.localPath.isNone then g
  else if strIncludes link.path "/resources/" then
    { g with resources := g.resources ++ [link] }
  else if strIncludes link.path "/data-sources/" then
    { g with dataSources := g.dataSources ++ [link] }
  else if strIncludes link.path "/guides/" then
    { g with guides := g.guides ++ [link] }
  else if strIncludes link.path "/functions/" then
    { g with functions := g.functions ++ [link] }
  else g

/-- The grouped landing-page data built by `createIndexPage`. -/
def createIndexGroups (links : List FetchedLink) : Grouped :=
  links.foldl groupStep { resources := [], dataSources := [], guides := [], functions := [] }

/-- The Type Classifier exactly as the spec words it: first-match-wins
on the path markers, then the case-insensitive name test, then the
default. Stated separately from `determineEntryType` so the two can be
compared. -/
def determineEntryTypeSpec (name pathKey : String) : String :=
  if strIncludes pathKey "/resources/" then "Resource"
  else if strIncludes pathKey "/data-sources/" then "Source"
  else if strIncludes pathKey "/guides/" then "Guide"
  else if strIncludes pathKey "/functions/" then "Function"
  else if strIncludes (jsToLower name) "provider" then "Provider"
  else "Guide"

/-- An anchor yields the href `h`: the attribute is present with value
`h` and the keep-condition of the extraction loops holds. -/
def yields (a : Anchor) (h : String) : Prop :=
  a.href = some h ∧ keepAnchor a = true

/-- The anchors in dedup-resolution order: the primary menu-item pass
first, then the all-anchors pass, both in document order. -/
def passList (anchors : List Anchor) : List Anchor :=
  anchors.filter (fun a => a.isMenuItem) ++ anchors

/-- Boolean form of `yields`, usable as a search predicate. -/
def yieldsB (a : Anchor) (h : String) : Bool :=
  (a.href == some h) && keepAnchor a

/-- Split a character list on `/` separators. -/
def splitOnSlash : List Char → List (List Char)
  | [] => [[]]
  | c :: rest =>
    let r := splitOnSlash rest
    if c == '/' then [] :: r
    else (c :: r.headD []) :: r.tail

/-- Walk `/`-separated segments keeping a depth counter; `true` when a
`..` segment takes the depth below the root. -/
def walkSegments : List (List Char) → Nat → Bool
  | [], _ => false
  | seg :: rest, d =>
    if seg == ['.', '.'] then
      if d == 0 then true else walkSegments rest (d - 1)
    else if seg == ([] : List Char) || seg == ['.'] then walkSegments rest d
    else walkSegments rest (d + 1)

/-- Formalisation of the claim's words "traverses outside the output
root": resolving the relative path's segments dips above its root. -/
def escapesRoot (s : String) : Bool :=
  walkSegments (splitOnSlash s.data) 0

/-- Membership condition for the landing page's Resources group. -/
def pRes (l : FetchedLink) : Bool :=
  l.localPath.isSome && strIncludes l.path "/resources/"

/-- Membership condition for the landing page's Data Sources group. -/
def pData (l : FetchedLink) : Bool :=
  l.localPath.isSome && !strIncludes l.path "/resources/" &&
    strIncludes l.path "/data-sources/"

/-- Membership condition for the landing page's Guides group. -/
def pGuide (l : FetchedLink) : Bool :=
  l.localPath.isSome && !strIncludes l.path "/resources/" &&
    !strIncludes l.path "/data-sources/" && strIncludes l.path "/guides/"

/-- Membership condition for the landing page's Functions group. -/
def pFunc (l : FetchedLink) : Bool :=
  l.localPath.isSome && !strIncludes l.path "/resources/" &&
    !strIncludes l.path "/data-sources/" && !strIncludes l.path "/guides/" &&
    strIncludes l.path "/functions/"


/-- C2: for every `(name, pathKey)` the Type Classifier returns exactly
one value of the closed set {Resource, Source, Guide, Function,
Provider}, chosen first-match-wins in the order: `/resources/` →
Resource, `/data-sources/` → Source, `/guides/` → Guide, `/functions/`
→ Function, name containing "provider" case-insensitively → Provider,
default Guide. -/
theorem determineEntryType_closed_first_match (name pathKey : String) :
    determineEntryType name pathKey = determineEntryTypeSpec name pathKey ∧
    (determineEntryType name pathKey = "Resource" ∨
     determineEntryType name pathKey = "Source" ∨
     determineEntryType name pathKey = "Guide" ∨
     determineEntryType name pathKey = "Function" ∨
     determineEntryType name pathKey = "Provider") := by
  constructor
  · rfl
  · unfold determineEntryType
    split_ifs <;> simp [ENTRY_TYPES]

theorem pageRecords_of_none (l : FetchedLink) (h : l.localPath = none) :
    pageRecords l = [] := by
  simp [pageRecords, h]

theorem pageRecords_length_of_some (l : FetchedLink) (lp : String)
    (h : l.localPath = some lp) :
    (pageRecords l).length = 1 + l.sections.length := by
  simp [pageRecords, h]
  omega

theorem buildIndex_eq_flatMap (links : List FetchedLink) :
    buildIndex links = links.flatMap pageRecords := by
  have key : ∀ (ls : List FetchedLink) (acc : List IndexRecord),
      ls.foldl (fun a l => a ++ pageRecords l) acc = acc ++ ls.flatMap pageRecords := by
    intro ls
    induction ls with
    | nil => intro acc; simp
    | cons l rest ih => intro acc; simp [ih, List.append_assoc]
  simpa using key links []

/-- C1: the Index Builder produces records for exactly the candidates
carrying a `localPath` (failed candidates contribute zero records), and
the total record count equals the number of succeeding pages plus the
sum of their section counts. -/
theorem buildIndex_failure_isolation (links : List FetchedLink) :
    buildIndex links = (links.filter (fun l => l.localPath.isSome)).flatMap pageRecords ∧
    (∀ l ∈ links, l.localPath = none → pageRecords l = []) ∧
    (buildIndex links).length =
      (links.filter (fun l => l.localPath.isSome)).length +
        ((links.filter (fun l => l.localPath.isSome)).map (fun l => l.sections.length)).sum := by
  refine ⟨?_, fun l _ h => pageRecords_of_none l h, ?_⟩
  · rw [buildIndex_eq_flatMap]
    induction links with
    | nil => simp
    | cons l rest ih =>
      cases h : l.localPath with
      | none => simp [List.filter_cons, h, pageRecords_of_none l h, ih]
      | some lp => simp [List.filter_cons, h, ih]
  · rw [buildIndex_eq_flatMap]
    induction links with
    | nil => simp
    | cons l rest ih =>
      cases h : l.localPath with
      | none => simp [List.filter_cons, h, pageRecords_of_none l h, ih]
      | some lp =>
        simp [List.filter_cons, h, pageRecords_length_of_some l lp h, ih]
        omega

theorem extractSections_append (i : String) (hs₁ hs₂ : List Heading) :
    extractSections ⟨i, hs₁ ++ hs₂⟩ =
      extractSections ⟨i, hs₁⟩ ++ extractSections ⟨i, hs₂⟩ := by
  simp [extractSections, List.filter_append, List.filterMap_append]

/-- C10: a heading yields a Section exactly when it carries an id
attribute whose value is non-empty and its text, after stripping
leading `#` markers and trimming, is non-empty; a heading failing
either condition contributes nothing to the extracted sequence (and
hence nothing to the search index, which derives section records from
this sequence). -/
theorem heading_section_characterization (i : String) (pre post : List Heading)
    (h : Heading) :
    extractSections ⟨i, pre ++ h :: post⟩ =
      extractSections ⟨i, pre⟩ ++
        (match h.id with
         | some id =>
           if id != "" && cleanText h.text != "" then
             [{ id := id, text := cleanText h.text, level := jsToLower h.tagName }]
           else []
         | none => []) ++
        extractSections ⟨i, post⟩ := by
  have step : extractSections ⟨i, h :: post⟩ =
      (match h.id with
       | some id =>
         if id != "" && cleanText h.text != "" then
           [{ id := id, text := cleanText h.text, level := jsToLower h.tagName }]
         else []
       | none => []) ++ extractSections ⟨i, post⟩ := by
    cases hid : h.id with
    | none => simp [extractSections, List.filter_cons, hid]
    | some id =>
      by_cases h1 : id = "" <;> by_cases h2 : cleanText h.text = "" <;>
        simp [extractSections, List.filter_cons, List.filterMap_cons, hid, h1, h2]
  rw [extractSections_append, step, List.append_assoc]

/-- C8: content extraction never fails — when neither the preferred
container selector nor the fallback matches, it returns empty content
and an empty sections sequence; when no qualifying headings exist the
sections sequence is empty; and a per-link failure arises exactly from
a navigation error (extraction on a rendered DOM always annotates the
link; a navigation failure leaves it unannotated). -/
theorem extraction_degrades_gracefully :
    (∀ dom : PageDom, dom.markdown = none → dom.article = none →
      (docContentOf dom).content = "" ∧ (docContentOf dom).sections = []) ∧
    (∀ c : Container,
      (∀ hd ∈ c.headings, ∀ id, hd.id = some id → id = "" ∨ cleanText hd.text = "") →
      extractSections c = []) ∧
    (∀ (dom : PageDom) (l : RawLink),
      (annotate (some dom) l).localPath = some (localPathOf l.path)) ∧
    (∀ l : RawLink, (annotate none l).localPath = none) := by
  refine ⟨?_, ?_, fun dom l => rfl, fun l => rfl⟩
  · intro dom h1 h2
    simp [docContentOf, h1, h2]
  · intro c hc
    rw [extractSections, List.filterMap_eq_nil_iff]
    intro hd hmem
    rcases List.mem_filter.mp hmem with ⟨hmem', hsome⟩
    rcases Option.isSome_iff_exists.mp hsome with ⟨id, hid⟩
    rcases hc hd hmem' id hid with h | h <;> simp [hid, h]

theorem C8_witness :
    (docContentOf ⟨none, none, "Terraform Registry", []⟩).content = "" ∧
    (docContentOf ⟨none, none, "Terraform Registry", []⟩).sections = [] :=
  extraction_degrades_gracefully.1 ⟨none, none, "Terraform Registry", []⟩ rfl rfl

theorem jsToLower_H2 : jsToLower "H2" = "h2" := by decide

theorem jsToLower_H3 : jsToLower "H3" = "h3" := by decide

/-- C4: for a page whose container holds, in document order, headings
H2(a), H3(b), H2(c) with identifier attributes, the extracted sections
sequence is exactly `[a, b, c]` with levels `[h2, h3, h2]`, and the
index records of that page preserve the order with categories
`[Section, Entry, Section]` after the page record. -/
theorem section_ordering (inner ida ta idb tb idc tc name pathKey url : String)
    (ha : ida ≠ "") (ha' : cleanText ta ≠ "")
    (hb : idb ≠ "") (hb' : cleanText tb ≠ "")
    (hc : idc ≠ "") (hc' : cleanText tc ≠ "") :
    extractSections ⟨inner,
        [⟨"H2", some ida, ta⟩, ⟨"H3", some idb, tb⟩, ⟨"H2", some idc, tc⟩]⟩ =
      [⟨ida, cleanText ta, "h2"⟩, ⟨idb, cleanText tb, "h3"⟩, ⟨idc, cleanText tc, "h2"⟩] ∧
    pageRecords
        { name := name, path := pathKey, fullUrl := url
        , localPath := some (localPathOf pathKey)
        , sections :=
            [⟨ida, cleanText ta, "h2"⟩, ⟨idb, cleanText tb, "h3"⟩, ⟨idc, cleanText tc, "h2"⟩] } =
      [⟨name, determineEntryType name pathKey, localPathOf pathKey⟩,
       ⟨cleanText ta, "Section", localPathOf pathKey ++ "#" ++ ida⟩,
       ⟨cleanText tb, "Entry", localPathOf pathKey ++ "#" ++ idb⟩,
       ⟨cleanText tc, "Section", localPathOf pathKey ++ "#" ++ idc⟩] := by
  have e2 : ("h2" == "h2") = true := by decide
  have e3 : ("h3" == "h2") = false := by decide
  constructor
  · simp [extractSections, List.filter_cons, List.filterMap_cons,
      jsToLower_H2, jsToLower_H3, ha, ha', hb, hb', hc, hc']
  · simp [pageRecords, e2, e3]

theorem section_ordering_witness :
    extractSections ⟨"",
        [⟨"H2", some "schema", "Schema"⟩, ⟨"H3", some "nested-schema", "Nested Schema"⟩,
         ⟨"H2", some "example-usage", "Example Usage"⟩]⟩ =
      [⟨"schema", cleanText "Schema", "h2"⟩,
       ⟨"nested-schema", cleanText "Nested Schema", "h3"⟩,
       ⟨"example-usage", cleanText "Example Usage", "h2"⟩] :=
  (section_ordering "" "schema" "Schema" "nested-schema" "Nested Schema"
    "example-usage" "Example Usage" "routeros_interface"
    "/providers/terraform-routeros/routeros/latest/docs/resources/interface" "u"
    (by decide) (by decide) (by decide) (by decide) (by decide) (by decide)).1

theorem strStartsWith_append (s t : String) : strStartsWith (s ++ t) s = true := by
  rw [strStartsWith, List.isPrefixOf_iff_prefix]
  exact String.data_append s t ▸ List.prefix_append s.data t.data

theorem strStartsWith_refl (s : String) : strStartsWith s s = true := by
  rw [strStartsWith, List.isPrefixOf_iff_prefix]

/-- C3: a successfully fetched candidate's `localPath` equals its
`pathKey` with a single leading `/` removed and `.html` appended, the
Index Builder's page record for it carries exactly that value, and
every record location of the page is rooted at it (the Output
Assembler reads the very same stored `localPath` field of the
annotated link). -/
theorem localPath_contract (fetch : RawLink → Option PageDom) (links : List RawLink)
    (l : FetchedLink) (hl : l ∈ downloadPages fetch links) (lp : String)
    (hlp : l.localPath = some lp) :
    lp = stripLeadingSlash l.path ++ ".html" ∧
    (pageRecords l).head? =
      some { name := l.name, type := determineEntryType l.name l.path, path := lp } ∧
    ∀ r ∈ pageRecords l, strStartsWith r.path lp = true := by
  rcases List.mem_map.mp hl with ⟨raw, hraw, heq⟩
  refine ⟨?_, ?_, ?_⟩
  · cases hf : fetch raw with
    | none =>
      exfalso
      rw [← heq, hf] at hlp
      simp [annotate] at hlp
    | some dom =>
      rw [← heq, hf] at hlp ⊢
      simp [annotate, localPathOf] at hlp ⊢
      exact hlp.symm
  · simp [pageRecords, hlp]
  · intro r hr
    simp [pageRecords, hlp] at hr
    rcases hr with hr | ⟨s, hs, hr⟩
    · rw [hr]
      exact strStartsWith_refl lp
    · rw [← hr]
      have : lp ++ "#" ++ s.id = lp ++ ("#" ++ s.id) := by
        rw [String.append_assoc]
      rw [this]
      exact strStartsWith_append lp ("#" ++ s.id)

theorem localPath_contract_witness :
    localPathOf "/providers/x/y/docs/resources/interface" =
      stripLeadingSlash "/providers/x/y/docs/resources/interface" ++ ".html" ∧
    localPathOf "/providers/x/y/docs/resources/interface" =
      "providers/x/y/docs/resources/interface.html" :=
  ⟨(localPath_contract (fun _ => some ⟨none, none, "T", []⟩)
      [{ name := "Interface", path := "/providers/x/y/docs/resources/interface", fullUrl := "u" }]
      (annotate (some ⟨none, none, "T", []⟩)
        { name := "Interface", path := "/providers/x/y/docs/resources/interface", fullUrl := "u" })
      (by simp [downloadPages]) (localPathOf "/providers/x/y/docs/resources/interface") rfl).1,
   by decide⟩

theorem collectPass_cond_iff (a : Anchor) (h : String) (seen : List String)
    (ha : a.href = some h) :
    ((h != "" && (jsTrim a.text) != "" && strIncludes h "/docs/" &&
        !(seen.contains h)) = true) ↔
      (keepAnchor a = true ∧ h ∉ seen) := by
  constructor
  · intro hcnd
    rcases Bool.and_eq_true_iff.mp hcnd with ⟨hk, hns⟩
    refine ⟨?_, ?_⟩
    · rw [keepAnchor, ha]
      exact hk
    · intro hmem
      rw [Bool.not_eq_true'] at hns
      have hcon : seen.contains h = true := List.elem_iff.mpr hmem
      rw [hcon] at hns
      cases hns
  · rintro ⟨hk, hns⟩
    rw [keepAnchor, ha] at hk
    rw [Bool.and_eq_true_iff]
    refine ⟨hk, ?_⟩
    rw [Bool.not_eq_true']
    cases hcon : seen.contains h with
    | false => rfl
    | true => exact absurd (List.elem_iff.mp hcon) hns

theorem collectPass_seen_mono (origin : String) (anchors : List Anchor)
    (acc : List RawLink) (seen : List String) (h : String) (hh : h ∈ seen) :
    h ∈ (collectPass origin anchors acc seen).2 := by
  induction anchors generalizing acc seen with
  | nil => simpa [collectPass] using hh
  | cons a rest ih =>
    cases ha : a.href with
    | none => simpa [collectPass, ha] using ih acc seen hh
    | some h' =>
      by_cases hc : (h' != "" && (jsTrim a.text) != "" && strIncludes h' "/docs/" &&
          !(seen.contains h')) = true
      · simp only [collectPass, ha]
        rw [if_pos hc]
        exact ih _ _ (List.mem_cons_of_mem h' hh)
      · simp only [collectPass, ha]
        rw [if_neg hc]
        exact ih acc seen hh

theorem collectPass_mem_seen (origin : String) (anchors : List Anchor)
    (acc : List RawLink) (seen : List String) (h : String) :
    h ∈ (collectPass origin anchors acc seen).2 ↔
      h ∈ seen ∨ ∃ a ∈ anchors, yields a h := by
  induction anchors generalizing acc seen with
  | nil => simp [collectPass]
  | cons a rest ih =>
    cases ha : a.href with
    | none =>
      simp only [collectPass, ha]
      rw [ih]
      constructor
      · rintro (hs | ⟨b, hb, hy⟩)
        · exact Or.inl hs
        · exact Or.inr ⟨b, List.mem_cons_of_mem a hb, hy⟩
      · rintro (hs | ⟨b, hb, hy⟩)
        · exact Or.inl hs
        · rcases List.mem_cons.mp hb with rfl | hb'
          · exact absurd hy.1 (by simp [ha])
          · exact Or.inr ⟨b, hb', hy⟩
    | some h' =>
      by_cases hc : (h' != "" && (jsTrim a.text) != "" && strIncludes h' "/docs/" &&
          !(seen.contains h')) = true
      · simp only [collectPass, ha]
        rw [if_pos hc, ih]
        have hk := (collectPass_cond_iff a h' seen ha).mp hc
        constructor
        · rintro (hs | ⟨b, hb, hy⟩)
          · rcases List.mem_cons.mp hs with rfl | hs'
            · exact Or.inr ⟨a, List.mem_cons_self a rest, ha, hk.1⟩
            · exact Or.inl hs'
          · exact Or.inr ⟨b, List.mem_cons_of_mem a hb, hy⟩
        · rintro (hs | ⟨b, hb, hy⟩)
          · exact Or.inl (List.mem_cons_of_mem h' hs)
          · rcases List.mem_cons.mp hb with rfl | hb'
            · have : h = h' := by
                have := hy.1
                rw [ha] at this
                exact (Option.some_inj.mp this).symm
              exact Or.inl (this ▸ List.mem_cons_self h' seen)
            · exact Or.inr ⟨b, hb', hy⟩
      · simp only [collectPass, ha]
        rw [if_neg hc, ih]
        constructor
        · rintro (hs | ⟨b, hb, hy⟩)
          · exact Or.inl hs
          · exact Or.inr ⟨b, List.mem_cons_of_mem a hb, hy⟩
        · rintro (hs | ⟨b, hb, hy⟩)
          · exact Or.inl hs
          · rcases List.mem_cons.mp hb with rfl | hb'
            · -- the skipped anchor: it yields h only if h was already seen
              have hbh : h = h' := by
                have := hy.1
                rw [ha] at this
                exact (Option.some_inj.mp this).symm
              subst hbh
              by_cases hseen : h ∈ seen
              · exact Or.inl hseen
              · exact absurd ((collectPass_cond_iff b h seen ha).mpr ⟨hy.2, hseen⟩) hc
            · exact Or.inr ⟨b, hb', hy⟩

theorem collectPass_mem_paths (origin : String) (anchors : List Anchor)
    (acc : List RawLink) (seen : List String) (h : String) :
    h ∈ ((collectPass origin anchors acc seen).1.map (fun l => l.path)) ↔
      h ∈ acc.map (fun l => l.path) ∨ (h ∉ seen ∧ ∃ a ∈ anchors, yields a h) := by
  induction anchors generalizing acc seen with
  | nil => simp [collectPass]
  | cons a rest ih =>
    cases ha : a.href with
    | none =>
      simp only [collectPass, ha]
      rw [ih]
      constructor
      · rintro (hp | ⟨hns, b, hb, hy⟩)
        · exact Or.inl hp
        · exact Or.inr ⟨hns, b, List.mem_cons_of_mem a hb, hy⟩
      · rintro (hp | ⟨hns, b, hb, hy⟩)
        · exact Or.inl hp
        · rcases List.mem_cons.mp hb with rfl | hb'
          · exact absurd hy.1 (by simp [ha])
          · exact Or.inr ⟨hns, b, hb', hy⟩
    | some h' =>
      by_cases hc : (h' != "" && (jsTrim a.text) != "" && strIncludes h' "/docs/" &&
          !(seen.contains h')) = true
      · have hk := (collectPass_cond_iff a h' seen ha).mp hc
        simp only [collectPass, ha]
        rw [if_pos hc, ih]
        constructor
        · rintro (hp | ⟨hns, b, hb, hy⟩)
          · rcases List.mem_map.mp hp with ⟨l, hl, hpath⟩
            rcases List.mem_append.mp hl with hl' | hl'
            · exact Or.inl (List.mem_map.mpr ⟨l, hl', hpath⟩)
            · have : l.path = h' := by
                rcases List.mem_singleton.mp hl' with rfl
                rfl
              rw [← hpath, this]
              exact Or.inr ⟨hk.2, a, List.mem_cons_self a rest, ha, hk.1⟩
          · have hns' : h ∉ seen := fun hmem => hns (List.mem_cons_of_mem h' hmem)
            exact Or.inr ⟨hns', b, List.mem_cons_of_mem a hb, hy⟩
        · rintro (hp | ⟨hns, b, hb, hy⟩)
          · refine Or.inl (List.mem_map.mpr ?_)
            rcases List.mem_map.mp hp with ⟨l, hl, hpath⟩
            exact ⟨l, List.mem_append.mpr (Or.inl hl), hpath⟩
          · rcases List.mem_cons.mp hb with rfl | hb'
            · have hh' : h = h' := by
                have := hy.1
                rw [ha] at this
                exact (Option.some_inj.mp this).symm
              subst hh'
              exact Or.inl (List.mem_map.mpr
                ⟨{ name := jsTrim b.text, path := h, fullUrl := resolveUrl origin h },
                  List.mem_append.mpr (Or.inr (List.mem_singleton.mpr rfl)), rfl⟩)
            · by_cases hh' : h = h'
              · subst hh'
                exact Or.inl (List.mem_map.mpr
                  ⟨{ name := jsTrim a.text, path := h, fullUrl := resolveUrl origin h },
                    List.mem_append.mpr (Or.inr (List.mem_singleton.mpr rfl)), rfl⟩)
              · have hns' : h ∉ h' :: seen := by
                  intro hmem
                  rcases List.mem_cons.mp hmem with h0 | h0
                  · exact hh' h0
                  · exact hns h0
                exact Or.inr ⟨hns', b, hb', hy⟩
      · simp only [collectPass, ha]
        rw [if_neg hc, ih]
        constructor
        · rintro (hp | ⟨hns, b, hb, hy⟩)
          · exact Or.inl hp
          · exact Or.inr ⟨hns, b, List.mem_cons_of_mem a hb, hy⟩
        · rintro (hp | ⟨hns, b, hb, hy⟩)
          · exact Or.inl hp
          · rcases List.mem_cons.mp hb with rfl | hb'
            · have hh' : h = h' := by
                have := hy.1
                rw [ha] at this
                exact (Option.some_inj.mp this).symm
              subst hh'
              exfalso
              exact hns (by_contra fun hns' =>
                hc ((collectPass_cond_iff b h seen ha).mpr ⟨hy.2, fun hm => hns hm⟩))
            · exact Or.inr ⟨hns, b, hb', hy⟩

theorem collectPass_provenance (origin : String) (anchors : List Anchor)
    (acc : List RawLink) (seen : List String) (l : RawLink)
    (hl : l ∈ (collectPass origin anchors acc seen).1) :
    l ∈ acc ∨ ∃ a ∈ anchors, a.href = some l.path ∧ keepAnchor a = true ∧
      l.name = jsTrim a.text ∧ l.fullUrl = resolveUrl origin l.path := by
  induction anchors generalizing acc seen with
  | nil => exact Or.inl (by simpa [collectPass] using hl)
  | cons a rest ih =>
    cases ha : a.href with
    | none =>
      simp only [collectPass, ha] at hl
      rcases ih _ _ hl with h1 | ⟨b, hb, hrest⟩
      · exact Or.inl h1
      · exact Or.inr ⟨b, List.mem_cons_of_mem a hb, hrest⟩
    | some h' =>
      by_cases hc : (h' != "" && (jsTrim a.text) != "" && strIncludes h' "/docs/" &&
          !(seen.contains h')) = true
      · simp only [collectPass, ha] at hl
        rw [if_pos hc] at hl
        rcases ih _ _ hl with h1 | ⟨b, hb, hrest⟩
        · rcases List.mem_append.mp h1 with h2 | h2
          · exact Or.inl h2
          · rcases List.mem_singleton.mp h2 with rfl
            have hk := (collectPass_cond_iff a h' seen ha).mp hc
            exact Or.inr ⟨a, List.mem_cons_self a rest, ha, hk.1, rfl, rfl⟩
        · exact Or.inr ⟨b, List.mem_cons_of_mem a hb, hrest⟩
      · simp only [collectPass, ha] at hl
        rw [if_neg hc] at hl
        rcases ih _ _ hl with h1 | ⟨b, hb, hrest⟩
        · exact Or.inl h1
        · exact Or.inr ⟨b, List.mem_cons_of_mem a hb, hrest⟩

theorem collectPass_nodup (origin : String) (anchors : List Anchor)
    (acc : List RawLink) (seen : List String)
    (hnd : (acc.map (fun l => l.path)).Nodup)
    (hsub : ∀ p ∈ acc.map (fun l => l.path), p ∈ seen) :
    ((collectPass origin anchors acc seen).1.map (fun l => l.path)).Nodup ∧
    (∀ p ∈ (collectPass origin anchors acc seen).1.map (fun l => l.path),
      p ∈ (collectPass origin anchors acc seen).2) := by
  induction anchors generalizing acc seen with
  | nil => exact ⟨by simpa [collectPass] using hnd, by simpa [collectPass] using hsub⟩
  | cons a rest ih =>
    cases ha : a.href with
    | none =>
      simp only [collectPass, ha]
      exact ih acc seen hnd hsub
    | some h' =>
      by_cases hc : (h' != "" && (jsTrim a.text) != "" && strIncludes h' "/docs/" &&
          !(seen.contains h')) = true
      · have hk := (collectPass_cond_iff a h' seen ha).mp hc
        simp only [collectPass, ha]
        rw [if_pos hc]
        apply ih
        · rw [List.map_append, List.nodup_append]
          refine ⟨hnd, by simp, ?_⟩
          intro p hp hq
          simp at hq
          subst hq
          exact hk.2 (hsub p hp)
        · intro p hp
          rw [List.map_append] at hp
          rcases List.mem_append.mp hp with hp' | hp'
          · exact List.mem_cons_of_mem h' (hsub p hp')
          · simp at hp'
            subst hp'
            exact List.mem_cons_self _ _
      · simp only [collectPass, ha]
        rw [if_neg hc]
        exact ih acc seen hnd hsub

theorem docLinksOf_paths_nodup (origin : String) (anchors : List Anchor) :
    ((docLinksOf origin anchors).map (fun l => l.path)).Nodup := by
  simp only [docLinksOf]
  have h1 := collectPass_nodup origin (anchors.filter (fun a => a.isMenuItem)) [] []
    (by simp) (by simp)
  exact (collectPass_nodup origin anchors _ _ h1.1 h1.2).1

theorem docLinksOf_mem_paths (origin : String) (anchors : List Anchor) (h : String) :
    h ∈ (docLinksOf origin anchors).map (fun l => l.path) ↔ ∃ a ∈ anchors, yields a h := by
  simp only [docLinksOf]
  rw [collectPass_mem_paths]
  constructor
  · rintro (hp | ⟨_, hex⟩)
    · rw [collectPass_mem_paths] at hp
      rcases hp with h0 | ⟨_, b, hb, hy⟩
      · simp at h0
      · exact ⟨b, (List.mem_filter.mp hb).1, hy⟩
    · exact hex
  · rintro ⟨b, hb, hy⟩
    by_cases hseen : h ∈ (collectPass origin (anchors.filter (fun a => a.isMenuItem)) [] []).2
    · left
      rw [collectPass_mem_seen] at hseen
      rcases hseen with h0 | ⟨c, hc, hy'⟩
      · simp at h0
      · rw [collectPass_mem_paths]
        exact Or.inr ⟨by simp, c, hc, hy'⟩
    · exact Or.inr ⟨hseen, b, hb, hy⟩

theorem docLinksOf_provenance (origin : String) (anchors : List Anchor) (l : RawLink)
    (hl : l ∈ docLinksOf origin anchors) :
    ∃ a ∈ anchors, a.href = some l.path ∧ keepAnchor a = true ∧
      l.name = jsTrim a.text ∧ l.fullUrl = resolveUrl origin l.path := by
  simp only [docLinksOf] at hl
  rcases collectPass_provenance origin anchors _ _ l hl with h1 | h1
  · rcases collectPass_provenance origin _ _ _ l h1 with h2 | ⟨b, hb, hrest⟩
    · simp at h2
    · exact ⟨b, (List.mem_filter.mp hb).1, hrest⟩
  · exact h1

theorem collectPass_append (origin : String) (xs ys : List Anchor)
    (acc : List RawLink) (seen : List String) :
    collectPass origin (xs ++ ys) acc seen =
      collectPass origin ys (collectPass origin xs acc seen).1
        (collectPass origin xs acc seen).2 := by
  induction xs generalizing acc seen with
  | nil => simp [collectPass]
  | cons a rest ih =>
    rw [List.cons_append]
    cases ha : a.href with
    | none =>
      simp only [collectPass, ha]
      exact ih _ _
    | some h' =>
      by_cases hc : (h' != "" && (jsTrim a.text) != "" && strIncludes h' "/docs/" &&
          !(seen.contains h')) = true
      · simp only [collectPass, ha]
        rw [if_pos hc, if_pos hc]
        exact ih _ _
      · simp only [collectPass, ha]
        rw [if_neg hc, if_neg hc]
        exact ih _ _

theorem collectPass_first_wins (origin : String) (anchors : List Anchor)
    (acc : List RawLink) (seen : List String) (l : RawLink)
    (hl : l ∈ (collectPass origin anchors acc seen).1) :
    l ∈ acc ∨ (l.path ∉ seen ∧
      ∃ a, anchors.find? (fun b => yieldsB b l.path) = some a ∧
        l.name = jsTrim a.text ∧ l.fullUrl = resolveUrl origin l.path) := by
  induction anchors generalizing acc seen with
  | nil => exact Or.inl (by simpa [collectPass] using hl)
  | cons a rest ih =>
    cases ha : a.href with
    | none =>
      simp only [collectPass, ha] at hl
      rcases ih _ _ hl with h1 | ⟨hns, b, hfb, hn, hu⟩
      · exact Or.inl h1
      · refine Or.inr ⟨hns, b, ?_, hn, hu⟩
        rw [List.find?_cons_of_neg]
        · exact hfb
        · simp [yieldsB, ha]
    | some h' =>
      by_cases hc : (h' != "" && (jsTrim a.text) != "" && strIncludes h' "/docs/" &&
          !(seen.contains h')) = true
      · have hk := (collectPass_cond_iff a h' seen ha).mp hc
        simp only [collectPass, ha] at hl
        rw [if_pos hc] at hl
        rcases ih _ _ hl with h1 | ⟨hns, b, hfb, hn, hu⟩
        · rcases List.mem_append.mp h1 with h2 | h2
          · exact Or.inl h2
          · rcases List.mem_singleton.mp h2 with rfl
            refine Or.inr ⟨hk.2, a, ?_, rfl, rfl⟩
            exact List.find?_cons_of_pos rest (by simp [yieldsB, ha, hk.1])
        · have hlp : l.path ≠ h' := fun he => hns (he ▸ List.mem_cons_self _ _)
          refine Or.inr ⟨fun hm => hns (List.mem_cons_of_mem _ hm), b, ?_, hn, hu⟩
          rw [List.find?_cons_of_neg]
          · exact hfb
          · simp [yieldsB, ha, Ne.symm hlp]
      · simp only [collectPass, ha] at hl
        rw [if_neg hc] at hl
        rcases ih _ _ hl with h1 | ⟨hns, b, hfb, hn, hu⟩
        · exact Or.inl h1
        · refine Or.inr ⟨hns, b, ?_, hn, hu⟩
          rw [List.find?_cons_of_neg]
          · exact hfb
          · intro hcontra
            rcases Bool.and_eq_true_iff.mp hcontra with ⟨hbe, hka⟩
            have hpe : a.href = some l.path := eq_of_beq hbe
            have hpath : h' = l.path := by
              rw [ha] at hpe
              exact Option.some_inj.mp hpe
            have hsin : h' ∈ seen := by
              by_contra hnin
              exact hc ((collectPass_cond_iff a h' seen ha).mpr ⟨hka, hnin⟩)
            exact hns (hpath ▸ hsin)

theorem docLinksOf_eq_onePass (origin : String) (anchors : List Anchor) :
    docLinksOf origin anchors = (collectPass origin (passList anchors) [] []).1 := by
  simp only [docLinksOf, passList]
  rw [collectPass_append]

/-- C9: link extraction on a fixed rendered DOM snapshot is a pure
function of the anchor list, so two runs yield identical results; the
two-pass extraction (primary menu-item pass, then all-anchors pass,
sharing one seen-set) equals one first-seen-wins walk over the menu
anchors followed by all anchors in DOM order, so each raw href appears
at most once and the output order is determined solely by DOM order;
the kept hrefs are exactly those of some anchor with a truthy href
containing `/docs/` and non-empty trimmed text; and each kept entry's
fields come from the FIRST qualifying anchor for its href in that
resolution order — the menu-item pass takes precedence over the
all-anchors pass. -/
theorem discovery_idempotent_dedup (origin : String) (anchors : List Anchor) :
    docLinksOf origin anchors = (collectPass origin (passList anchors) [] []).1 ∧
    ((docLinksOf origin anchors).map (fun l => l.path)).Nodup ∧
    (∀ h : String,
      (∃ l ∈ docLinksOf origin anchors, l.path = h) ↔ ∃ a ∈ anchors, yields a h) ∧
    (∀ l ∈ docLinksOf origin anchors,
      ∃ a, (passList anchors).find? (fun b => yieldsB b l.path) = some a ∧
        l.name = jsTrim a.text ∧ l.fullUrl = resolveUrl origin l.path) := by
  refine ⟨docLinksOf_eq_onePass origin anchors,
    docLinksOf_paths_nodup origin anchors, ?_, ?_⟩
  · intro h
    rw [← docLinksOf_mem_paths]
    constructor
    · rintro ⟨l, hl, rfl⟩
      exact List.mem_map.mpr ⟨l, hl, rfl⟩
    · intro hm
      rcases List.mem_map.mp hm with ⟨l, hl, hp⟩
      exact ⟨l, hl, hp⟩
  · intro l hl
    rw [docLinksOf_eq_onePass origin anchors] at hl
    rcases collectPass_first_wins origin (passList anchors) [] [] l hl with h1 | ⟨_, hrest⟩
    · simp at h1
    · exact hrest

theorem discovery_idempotent_dedup_witness :
    ∃ a,
      (passList
          [⟨some "/providers/terraform-routeros/routeros/latest/docs/resources/interface",
            "Interface", true⟩,
           ⟨some "/providers/terraform-routeros/routeros/latest/docs/resources/interface",
            "Duplicate", false⟩]).find?
        (fun b => yieldsB b
          "/providers/terraform-routeros/routeros/latest/docs/resources/interface") = some a ∧
      "Interface" = jsTrim a.text ∧
      "https://registry.terraform.io/providers/terraform-routeros/routeros/latest/docs/resources/interface" =
        resolveUrl "https://registry.terraform.io"
          "/providers/terraform-routeros/routeros/latest/docs/resources/interface" :=
  (discovery_idempotent_dedup "https://registry.terraform.io"
    [⟨some "/providers/terraform-routeros/routeros/latest/docs/resources/interface",
      "Interface", true⟩,
     ⟨some "/providers/terraform-routeros/routeros/latest/docs/resources/interface",
      "Duplicate", false⟩]).2.2.2
    { name := "Interface"
    , path := "/providers/terraform-routeros/routeros/latest/docs/resources/interface"
    , fullUrl := "https://registry.terraform.io/providers/terraform-routeros/routeros/latest/docs/resources/interface" }
    (by decide)

/-- C5: a discovered link whose raw href path does not start with the
internal-site prefix is absent from the candidate set returned by
`scrapeDocumentation`, a skip message naming it is logged, and every
record of the search index built downstream comes from some other
(internal) candidate. -/
theorem external_link_excluded (origin : String) (anchors : List Anchor) (l : RawLink)
    (hmem : l ∈ docLinksOf origin anchors) (hext : isInternal l = false) :
    l ∉ scrapeDocumentation origin anchors ∧
    ("Skipping external link: " ++ l.name ++ " (" ++ l.path ++ ")") ∈
      skipLogs (docLinksOf origin anchors) ∧
    ∀ (fetch : RawLink → Option PageDom),
      ∀ r ∈ buildIndex (downloadPages fetch (scrapeDocumentation origin anchors)),
        ∃ k ∈ docLinksOf origin anchors, k ≠ l ∧
          r ∈ pageRecords (annotate (fetch k) k) := by
  refine ⟨?_, ?_, ?_⟩
  · intro hin
    rw [scrapeDocumentation, List.mem_filter] at hin
    rw [hin.2] at hext
    cases hext
  · rw [skipLogs]
    refine List.mem_map.mpr ⟨l, ?_, rfl⟩
    rw [List.mem_filter]
    exact ⟨hmem, by rw [hext]; rfl⟩
  · intro fetch r hr
    rw [buildIndex_eq_flatMap] at hr
    rcases List.mem_flatMap.mp hr with ⟨f, hf, hrf⟩
    rcases List.mem_map.mp hf with ⟨k, hk, hkf⟩
    rw [scrapeDocumentation, List.mem_filter] at hk
    refine ⟨k, hk.1, ?_, by rw [hkf]; exact hrf⟩
    intro hkl
    rw [hkl, hext] at hk
    cases hk.2

theorem external_link_excluded_witness :
    ({ name := "External", path := "https://other.example.com/docs/page"
     , fullUrl := "https://other.example.com/docs/page" } : RawLink) ∉
      scrapeDocumentation "https://registry.terraform.io"
        [⟨some "https://other.example.com/docs/page", "External", false⟩] :=
  (external_link_excluded "https://registry.terraform.io"
    [⟨some "https://other.example.com/docs/page", "External", false⟩]
    { name := "External", path := "https://other.example.com/docs/page"
    , fullUrl := "https://other.example.com/docs/page" }
    (by decide) (by decide)).1

theorem startsWith_slash_of_internal (p : String)
    (h : strStartsWith p "/providers/terraform-routeros/routeros" = true) :
    strStartsWith p "/" = true := by
  rw [strStartsWith, List.isPrefixOf_iff_prefix] at h ⊢
  exact List.IsPrefix.trans ⟨"providers/terraform-routeros/routeros".data, rfl⟩ h

theorem data_cons_of_slash (p : String) (h : strStartsWith p "/" = true) :
    ∃ t, p.data = '/' :: t := by
  rw [strStartsWith, List.isPrefixOf_iff_prefix] at h
  rcases h with ⟨t, ht⟩
  exact ⟨t, by rw [← ht]; rfl⟩

theorem localPathOf_data (p : String) (t : List Char) (h : p.data = '/' :: t) :
    (localPathOf p).data = t ++ ".html".data := by
  obtain ⟨pd⟩ := p
  simp only [String.data] at h
  subst h
  rw [localPathOf, String.data_append]
  congr 1

theorem localPathOf_inj (p q : String) (hp : strStartsWith p "/" = true)
    (hq : strStartsWith q "/" = true) (heq : localPathOf p = localPathOf q) : p = q := by
  rcases data_cons_of_slash p hp with ⟨tp, htp⟩
  rcases data_cons_of_slash q hq with ⟨tq, htq⟩
  have hd : (localPathOf p).data = (localPathOf q).data := by rw [heq]
  rw [localPathOf_data p tp htp, localPathOf_data q tq htq] at hd
  have ht : tp = tq := List.append_cancel_right hd
  apply String.ext
  rw [htp, htq, ht]

theorem localPathOf_no_leading_slash (p : String)
    (h : strStartsWith p "/providers/terraform-routeros/routeros" = true) :
    strStartsWith (localPathOf p) "/" = false := by
  rw [strStartsWith] at h
  rw [List.isPrefixOf_iff_prefix] at h
  rcases h with ⟨t, ht⟩
  have hp : p.data = '/' :: ("providers/terraform-routeros/routeros".data ++ t) := by
    rw [← ht]
    rfl
  have hd := localPathOf_data p _ hp
  rw [strStartsWith]
  cases hps : List.isPrefixOf "/".data (localPathOf p).data with
  | false => rfl
  | true =>
    exfalso
    rw [List.isPrefixOf_iff_prefix] at hps
    rcases hps with ⟨t2, ht2⟩
    rw [hd] at ht2
    have hh := congrArg List.head? ht2
    simp at hh

theorem annotate_path (od : Option PageDom) (k : RawLink) :
    (annotate od k).path = k.path := by
  cases od <;> rfl

theorem annotate_localPath_eq (od : Option PageDom) (k : RawLink) (lp : String)
    (h : (annotate od k).localPath = some lp) : lp = localPathOf k.path := by
  cases od with
  | none => simp [annotate] at h
  | some dom =>
    simp [annotate] at h
    exact h.symm

theorem fetched_localPaths_nodup (fetch : RawLink → Option PageDom) (ks : List RawLink)
    (hnd : (ks.map (fun k => k.path)).Nodup)
    (hsl : ∀ k ∈ ks, strStartsWith k.path "/" = true) :
    ((downloadPages fetch ks).filterMap (fun l => l.localPath)).Nodup := by
  induction ks with
  | nil => simp [downloadPages]
  | cons k rest ih =>
    rw [List.map_cons, List.nodup_cons] at hnd
    have hrest := ih hnd.2 (fun x hx => hsl x (List.mem_cons_of_mem k hx))
    rw [downloadPages] at hrest
    rw [downloadPages, List.map_cons, List.filterMap_cons]
    cases hf : fetch k with
    | none => exact hrest
    | some dom =>
      show (localPathOf k.path ::
        List.filterMap (fun l => l.localPath)
          (List.map (fun l => annotate (fetch l) l) rest)).Nodup
      rw [List.nodup_cons]
      refine ⟨?_, hrest⟩
      intro hmem
      rcases List.mem_filterMap.mp hmem with ⟨l, hl, hlp⟩
      rcases List.mem_map.mp hl with ⟨k', hk', hk'eq⟩
      rw [← hk'eq] at hlp
      have h1 := annotate_localPath_eq _ _ _ hlp
      have h2 : k'.path = k.path := by
        apply localPathOf_inj
        · exact hsl k' (List.mem_cons_of_mem k hk')
        · exact hsl k (List.mem_cons_self k rest)
        · exact h1.symm
      exact hnd.1 (List.mem_map.mpr ⟨k', hk', h2⟩)

/-- C6 (amended): any two distinct successfully-fetched candidates have
distinct `localPath` values (dedup by href makes candidate paths
pairwise distinct, the internal-prefix filter makes them slash-prefixed,
and strip-one-slash-append-suffix is injective on slash-prefixed
strings), and every `localPath` is relative: it does not begin with a
path separator.  (The original claim's further "no traversal outside
the output root" is not guaranteed — see the counterexample — because
the filter does not exclude `..` segments.) -/
theorem localPath_unique_relative (origin : String) (anchors : List Anchor)
    (fetch : RawLink → Option PageDom) :
    ((downloadPages fetch (scrapeDocumentation origin anchors)).filterMap
        (fun l => l.localPath)).Nodup ∧
    (∀ l ∈ downloadPages fetch (scrapeDocumentation origin anchors),
      ∀ lp, l.localPath = some lp → strStartsWith lp "/" = false) := by
  have hint : ∀ k ∈ scrapeDocumentation origin anchors,
      strStartsWith k.path "/providers/terraform-routeros/routeros" = true := by
    intro k hk
    rw [scrapeDocumentation, List.mem_filter] at hk
    exact hk.2
  constructor
  · apply fetched_localPaths_nodup
    · have hsub : (scrapeDocumentation origin anchors).Sublist (docLinksOf origin anchors) :=
        List.filter_sublist _
      exact List.Nodup.sublist (List.Sublist.map _ hsub) (docLinksOf_paths_nodup origin anchors)
    · exact fun k hk => startsWith_slash_of_internal k.path (hint k hk)
  · intro l hl lp hlp
    rcases List.mem_map.mp hl with ⟨k, hk, hkeq⟩
    rw [← hkeq] at hlp
    rw [annotate_localPath_eq _ _ _ hlp]
    exact localPathOf_no_leading_slash k.path (hint k hk)

/-- C6 counterexample: a discovered href that starts with the
internal-site prefix and contains `/docs/` may still contain
parent-directory segments; the pipeline keeps it, and the derived
`localPath` resolves outside the output root, contradicting the
claim's "does not traverse outside the output root". -/
theorem localPath_traversal_cex :
    ((downloadPages (fun _ => some ⟨none, none, "", []⟩)
        (scrapeDocumentation "https://registry.terraform.io"
          [⟨some "/providers/terraform-routeros/routeros/docs/../../../../../../etc/passwd",
            "Evil", false⟩])).filterMap (fun l => l.localPath)) =
      ["providers/terraform-routeros/routeros/docs/../../../../../../etc/passwd.html"] ∧
    escapesRoot
      "providers/terraform-routeros/routeros/docs/../../../../../../etc/passwd.html" = true := by
  decide

theorem localPath_unique_relative_witness :
    strStartsWith "providers/terraform-routeros/routeros/latest/docs/resources/interface.html"
      "/" = false :=
  (localPath_unique_relative "https://registry.terraform.io"
    [⟨some "/providers/terraform-routeros/routeros/latest/docs/resources/interface",
      "Interface", true⟩]
    (fun _ => some ⟨none, none, "", []⟩)).2
    (annotate (some ⟨none, none, "", []⟩)
      { name := "Interface"
      , path := "/providers/terraform-routeros/routeros/latest/docs/resources/interface"
      , fullUrl :=
          "https://registry.terraform.io/providers/terraform-routeros/routeros/latest/docs/resources/interface" })
    (by decide)
    "providers/terraform-routeros/routeros/latest/docs/resources/interface.html" rfl

/-- C7 counterexample: a discoverable, successfully fetched page whose
path contains none of the four grouping markers (here the overview
page, classified Guide by fallback) receives a `localPath` and index
records, yet appears in none of the landing page's groups — it is
absent from the landing page. -/
theorem landing_page_cex :
    ((downloadPages (fun _ => some ⟨none, none, "", []⟩)
        (scrapeDocumentation "https://registry.terraform.io"
          [⟨some "/providers/terraform-routeros/routeros/latest/docs/overview",
            "Overview", true⟩])).map (fun l => l.localPath)) =
      [some "providers/terraform-routeros/routeros/latest/docs/overview.html"] ∧
    determineEntryType "Overview"
        "/providers/terraform-routeros/routeros/latest/docs/overview" = "Guide" ∧
    createIndexGroups
        (downloadPages (fun _ => some ⟨none, none, "", []⟩)
          (scrapeDocumentation "https://registry.terraform.io"
            [⟨some "/providers/terraform-routeros/routeros/latest/docs/overview",
              "Overview", true⟩])) =
      { resources := [], dataSources := [], guides := [], functions := [] } := by
  decide

theorem createIndexGroups_foldl (links : List FetchedLink) (g : Grouped) :
    (links.foldl groupStep g).resources = g.resources ++ links.filter pRes ∧
    (links.foldl groupStep g).dataSources = g.dataSources ++ links.filter pData ∧
    (links.foldl groupStep g).guides = g.guides ++ links.filter pGuide ∧
    (links.foldl groupStep g).functions = g.functions ++ links.filter pFunc := by
  induction links generalizing g with
  | nil => simp
  | cons l rest ih =>
    rw [List.foldl_cons]
    rcases ih (groupStep g l) with ⟨i1, i2, i3, i4⟩
    rw [List.filter_cons, List.filter_cons, List.filter_cons, List.filter_cons]
    cases hl : l.localPath with
    | none =>
      have hstep : groupStep g l = g := by simp [groupStep, hl]
      rw [i1, i2, i3, i4, hstep]
      simp [pRes, pData, pGuide, pFunc, hl]
    | some v =>
      by_cases h1 : strIncludes l.path "/resources/" = true
      · have hstep : groupStep g l = { g with resources := g.resources ++ [l] } := by
          simp [groupStep, hl, h1]
        rw [i1, i2, i3, i4, hstep]
        simp [pRes, pData, pGuide, pFunc, hl, h1, List.append_assoc]
      · by_cases h2 : strIncludes l.path "/data-sources/" = true
        · have hstep : groupStep g l = { g with dataSources := g.dataSources ++ [l] } := by
            simp [groupStep, hl, h1, h2]
          rw [i1, i2, i3, i4, hstep]
          simp [pRes, pData, pGuide, pFunc, hl, h1, h2, List.append_assoc]
        · by_cases h3 : strIncludes l.path "/guides/" = true
          · have hstep : groupStep g l = { g with guides := g.guides ++ [l] } := by
              simp [groupStep, hl, h1, h2, h3]
            rw [i1, i2, i3, i4, hstep]
            simp [pRes, pData, pGuide, pFunc, hl, h1, h2, h3, List.append_assoc]
          · by_cases h4 : strIncludes l.path "/functions/" = true
            · have hstep : groupStep g l = { g with functions := g.functions ++ [l] } := by
                simp [groupStep, hl, h1, h2, h3, h4]
              rw [i1, i2, i3, i4, hstep]
              simp [pRes, pData, pGuide, pFunc, hl, h1, h2, h3, h4, List.append_assoc]
            · have hstep : groupStep g l = g := by
                simp [groupStep, hl, h1, h2, h3, h4]
              rw [i1, i2, i3, i4, hstep]
              simp [pRes, pData, pGuide, pFunc, hl, h1, h2, h3, h4]

theorem count_filter_ite (p : FetchedLink → Bool) (links : List FetchedLink)
    (l : FetchedLink) :
    ((links.filter p).count l) = if p l = true then links.count l else 0 := by
  by_cases hpl : p l = true
  · rw [if_pos hpl]
    induction links with
    | nil => simp
    | cons x rest ih =>
      rw [List.filter_cons]
      by_cases hx : p x = true
      · rw [if_pos hx, List.count_cons, List.count_cons, ih]
      · rw [if_neg hx, ih, List.count_cons]
        have hxl : (x == l) = false := by
          cases hbe : (x == l) with
          | true => exact absurd (eq_of_beq hbe ▸ hpl) hx
          | false => rfl
        rw [hxl]
        simp
  · rw [if_neg hpl, List.count_eq_zero]
    intro hmem
    exact hpl (List.mem_filter.mp hmem).2

/-- C7 (amended/corrected): the landing page groups are exactly the
annotated candidates with a `localPath` filtered by the four path
markers (rule order: resources, data-sources, guides, functions);
every grouped candidate sits in the group matching its Type Classifier
category, and a candidate is listed as many times as it occurs in the
annotated list when it matches some marker and zero times otherwise —
so a fetched candidate classified Provider, or classified Guide by the
name/default fallback (no `/guides/` in its path), is absent from the
landing page. -/
theorem landing_page_groups (links : List FetchedLink) :
    (createIndexGroups links).resources = links.filter pRes ∧
    (createIndexGroups links).dataSources = links.filter pData ∧
    (createIndexGroups links).guides = links.filter pGuide ∧
    (createIndexGroups links).functions = links.filter pFunc ∧
    (∀ l ∈ (createIndexGroups links).resources,
      determineEntryType l.name l.path = "Resource") ∧
    (∀ l ∈ (createIndexGroups links).dataSources,
      determineEntryType l.name l.path = "Source") ∧
    (∀ l ∈ (createIndexGroups links).guides,
      determineEntryType l.name l.path = "Guide") ∧
    (∀ l ∈ (createIndexGroups links).functions,
      determineEntryType l.name l.path = "Function") ∧
    (∀ l : FetchedLink,
      ((createIndexGroups links).resources ++ (createIndexGroups links).dataSources ++
        (createIndexGroups links).guides ++ (createIndexGroups links).functions).count l =
      if (pRes l || pData l || pGuide l || pFunc l) = true then links.count l else 0) := by
  rcases createIndexGroups_foldl links
      { resources := [], dataSources := [], guides := [], functions := [] } with
    ⟨e1, e2, e3, e4⟩
  rw [createIndexGroups] at *
  rw [List.nil_append] at e1 e2 e3 e4
  refine ⟨e1, e2, e3, e4, ?_, ?_, ?_, ?_, ?_⟩
  · intro l hl
    rw [e1, List.mem_filter] at hl
    rcases Bool.and_eq_true_iff.mp hl.2 with ⟨_, hres⟩
    rw [determineEntryType, if_pos hres]
    rfl
  · intro l hl
    rw [e2, List.mem_filter] at hl
    rcases Bool.and_eq_true_iff.mp hl.2 with ⟨hq1, hds⟩
    rcases Bool.and_eq_true_iff.mp hq1 with ⟨_, hnres⟩
    rw [Bool.not_eq_true'] at hnres
    rw [determineEntryType, if_neg (by rw [hnres]; exact Bool.false_ne_true), if_pos hds]
    rfl
  · intro l hl
    rw [e3, List.mem_filter] at hl
    rcases Bool.and_eq_true_iff.mp hl.2 with ⟨hq1, hg⟩
    rcases Bool.and_eq_true_iff.mp hq1 with ⟨hq2, hnds⟩
    rcases Bool.and_eq_true_iff.mp hq2 with ⟨_, hnres⟩
    rw [Bool.not_eq_true'] at hnres hnds
    rw [determineEntryType, if_neg (by rw [hnres]; exact Bool.false_ne_true),
      if_neg (by rw [hnds]; exact Bool.false_ne_true), if_pos hg]
    rfl
  · intro l hl
    rw [e4, List.mem_filter] at hl
    rcases Bool.and_eq_true_iff.mp hl.2 with ⟨hq1, hf⟩
    rcases Bool.and_eq_true_iff.mp hq1 with ⟨hq2, hng⟩
    rcases Bool.and_eq_true_iff.mp hq2 with ⟨hq3, hnds⟩
    rcases Bool.and_eq_true_iff.mp hq3 with ⟨_, hnres⟩
    rw [Bool.not_eq_true'] at hnres hnds hng
    rw [determineEntryType, if_neg (by rw [hnres]; exact Bool.false_ne_true),
      if_neg (by rw [hnds]; exact Bool.false_ne_true),
      if_neg (by rw [hng]; exact Bool.false_ne_true), if_pos hf]
    rfl
  · intro l
    rw [e1, e2, e3, e4, List.count_append, List.count_append, List.count_append,
      count_filter_ite, count_filter_ite, count_filter_ite, count_filter_ite]
    by_cases q1 : pRes l = true
    · have q2 : pData l = false := by
        rcases Bool.and_eq_true_iff.mp q1 with ⟨_, hres⟩
        simp [pData, hres]
      have q3 : pGuide l = false := by
        rcases Bool.and_eq_true_iff.mp q1 with ⟨_, hres⟩
        simp [pGuide, hres]
      have q4 : pFunc l = false := by
        rcases Bool.and_eq_true_iff.mp q1 with ⟨_, hres⟩
        simp [pFunc, hres]
      simp [q1, q2, q3, q4]
    · by_cases q2 : pData l = true
      · have q3 : pGuide l = false := by
          rcases Bool.and_eq_true_iff.mp q2 with ⟨_, hds⟩
          simp [pGuide, hds]
        have q4 : pFunc l = false := by
          rcases Bool.and_eq_true_iff.mp q2 with ⟨_, hds⟩
          simp [pFunc, hds]
        simp [q1, q2, q3, q4]
      · by_cases q3 : pGuide l = true
        · have q4 : pFunc l = false := by
            rcases Bool.and_eq_true_iff.mp q3 with ⟨_, hg⟩
            simp [pFunc, hg]
          simp [q1, q2, q3, q4]
        · by_cases q4 : pFunc l = true
          · simp [q1, q2, q3, q4]
          · simp [q1, q2, q3, q4]

theorem buildIndex_failure_isolation_witness :
    pageRecords
      { name := "B", path := "/providers/terraform-routeros/routeros/docs/resources/y"
      , fullUrl := "u", localPath := none, sections := [] } = [] :=
  (buildIndex_failure_isolation
    [{ name := "A", path := "/providers/terraform-routeros/routeros/docs/resources/x"
     , fullUrl := "u"
     , localPath := some "providers/terraform-routeros/routeros/docs/resources/x.html"
     , sections := [{ id := "schema", text := "Schema", level := "h2" }] },
     { name := "B", path := "/providers/terraform-routeros/routeros/docs/resources/y"
     , fullUrl := "u", localPath := none, sections := [] }]).2.1
    { name := "B", path := "/providers/terraform-routeros/routeros/docs/resources/y"
    , fullUrl := "u", localPath := none, sections := [] }
    (by decide) rfl

theorem landing_page_groups_witness :
    determineEntryType "Interface"
      "/providers/terraform-routeros/routeros/latest/docs/resources/interface" = "Resource" :=
  (landing_page_groups
    [{ name := "Interface"
     , path := "/providers/terraform-routeros/routeros/latest/docs/resources/interface"
     , fullUrl := "u"
     , localPath :=
         some "providers/terraform-routeros/routeros/latest/docs/resources/interface.html"
     , sections := [] }]).2.2.2.2.1
    { name := "Interface"
    , path := "/providers/terraform-routeros/routeros/latest/docs/resources/interface"
    , fullUrl := "u"
    , localPath :=
        some "providers/terraform-routeros/routeros/latest/docs/resources/interface.html"
    , sections := [] }
    (by decide)
